import Mathlib

/-!
Verification of the actor-critic example script
(src/examples/reinforcement_learning/actor_critic.py).

The script's numeric code is embedded shallowly:
rational/real arithmetic stands for the script's float arithmetic,
sampling and the environment are passed in as explicit oracles, and the
two places where torch produces a non-value (NaN from an unbiased
standard deviation of fewer than two elements, and the RuntimeError
raised by stacking an empty tensor list) are modelled with Option.
The external ignite Engine (part of the ignite repository but not under
src/) is modelled from the spec where its scheduling matters.
-/

namespace ActorCritic

/-- The numeric-stability constant of line 79:
np.finfo(np.float32).eps equals 2 to the power -23 exactly. -/
noncomputable def eps32 : ℝ := 1 / 2 ^ 23

/-- SavedAction namedtuple (line 19): the log-probability of the chosen
action and the value estimate recorded for one timestep. -/
structure SavedAction where
  log_prob : ℝ
  value : ℝ

/-- An affine layer, as nn.Linear(inDim, outDim): a weight matrix and a
bias vector. -/
structure Linear (inDim outDim : ℕ) where
  weight : Fin outDim → Fin inDim → ℝ
  bias : Fin outDim → ℝ

/-- Application of an affine layer: W x + b. -/
noncomputable def Linear.apply {i o : ℕ} (L : Linear i o) (x : Fin i → ℝ) : Fin o → ℝ :=
  fun j => (∑ k, L.weight j k * x k) + L.bias j

/-- F.relu. -/
def relu (x : ℝ) : ℝ := max x 0

/-- F.softmax along the last (only) dimension. -/
noncomputable def softmax {n : ℕ} (s : Fin n → ℝ) : Fin n → ℝ :=
  fun i => Real.exp (s i) / ∑ j, Real.exp (s j)

/-- The Policy module (lines 22-36): the three affine layers together
with the two per-episode buffers the script stores on the module
(saved_actions and rewards, lines 29-30).  The learned weights are
carried but never concretely updated here: the gradient step of
optimizer.step() is external autograd state not modelled. -/
structure Policy where
  affine1 : Linear 4 128
  action_head : Linear 128 2
  value_head : Linear 128 1
  saved_actions : List SavedAction
  rewards : List ℝ

/-- Policy.forward (lines 32-36): hidden = relu(affine1(x)); the head
outputs are softmax(action_head(hidden)) and value_head(hidden).  The
value head has output dimension 1 and the script immediately treats it
as a scalar (value.item()), so the single entry is returned. -/
noncomputable def Policy.forward (p : Policy) (x : Fin 4 → ℝ) : (Fin 2 → ℝ) × ℝ :=
  (softmax (p.action_head.apply fun j => relu (p.affine1.apply x j)),
   p.value_head.apply (fun j => relu (p.affine1.apply x j)) 0)

/-- select_action (lines 39-45).  Categorical(probs).sample() is a
random index of the 2-element probability vector; the drawn index is
passed in as the oracle argument sample : Fin 2.  The function returns
action.item() and appends SavedAction(m.log_prob(action), value) -
log_prob of a Categorical is the log of the chosen probability - to the
per-episode buffer.  The rewards buffer is untouched. -/
noncomputable def select_action (p : Policy) (observation : Fin 4 → ℝ) (sample : Fin 2) :
    ℕ × Policy :=
  let fwd := p.forward observation
  ((sample : ℕ),
   { p with saved_actions :=
      p.saved_actions ++ [⟨Real.log (fwd.1 sample), fwd.2⟩] })

/-- The backward loop of finish_episode, lines 54-56: iterate over the
reversed reward list, maintain R = r + gamma * R, and insert each R at
the front of the accumulator. -/
def returnsLoop {K : Type} [CommRing K] (gamma : K) : List K → K → List K → List K
  | [], _, acc => acc
  | r :: rest, R, acc => returnsLoop gamma rest (r + gamma * R) ((r + gamma * R) :: acc)

/-- The raw (pre-normalization) discounted returns of finish_episode
(lines 49-56): R starts at 0 and the rewards are consumed in reverse. -/
def computeReturns {K : Type} [CommRing K] (gamma : K) (rewards : List K) : List K :=
  returnsLoop gamma rewards.reverse 0 []

/-- torch.Tensor.mean of a 1-D tensor: sum divided by length. -/
noncomputable def mean (l : List ℝ) : ℝ := l.sum / l.length

/-- The sum of squared deviations from the mean. -/
noncomputable def sqDevSum (l : List ℝ) : ℝ :=
  (l.map fun x => (x - mean l) ^ 2).sum

/-- torch.Tensor.std squared: the unbiased sample variance, dividing
the squared deviations by (length - 1) (Bessel correction, torch's
default correction=1). -/
noncomputable def varUnbiased (l : List ℝ) : ℝ :=
  sqDevSum l / ((l.length : ℝ) - 1)

/-- torch.Tensor.std of a 1-D tensor, as a total real function: the
square root of the unbiased variance.  Meaningful for length at least
2; see normalizeReturns for the shorter tensors, where torch yields
NaN. -/
noncomputable def std (l : List ℝ) : ℝ := Real.sqrt (varUnbiased l)

/-- Line 58 as a total function on the entries:
(x - mean) / (std + eps) applied to every element. -/
noncomputable def normalizedOf (eps : ℝ) (l : List ℝ) : List ℝ :=
  l.map fun x => (x - mean l) / (std l + eps)

/-- Line 58 with torch's partiality made explicit: for a tensor of
fewer than two elements the unbiased std divides zero (or an empty sum)
by length - 1 <= 0, and torch returns NaN ("std(): degrees of freedom
is <= 0"); NaN + eps is NaN and the whole normalized tensor is NaN.
none models that NaN tensor; some gives the real-arithmetic value. -/
noncomputable def normalizeReturns (eps : ℝ) (l : List ℝ) : Option (List ℝ) :=
  if l.length ≤ 1 then none else some (normalizedOf eps l)

/-- F.smooth_l1_loss with default beta = 1 on scalars (the mean
reduction over a single element is that element). -/
noncomputable def smooth_l1_loss (input target : ℝ) : ℝ :=
  if |input - target| < 1 then (input - target) ^ 2 / 2 else |input - target| - 1 / 2

/-- finish_episode (lines 48-68).  Computes the discounted returns
(lines 49-56, the source rebinds the name rewards to them), normalizes
them (lines 57-58; the real-arithmetic values, with the NaN case of a
short episode tracked separately by normalizeReturns), zips them with
the saved actions (line 59) into the policy-gradient and value-loss
terms (lines 60-62), and sums the two stacked loss families (line 64).
torch.stack raises a RuntimeError on an empty tensor list, so when
either loss list is empty the call aborts with none and the buffers are
left as they were.  Otherwise loss.backward() and optimizer.step()
mutate the network parameters (external autograd state, not modelled)
and both per-episode buffers are cleared (lines 67-68).  The result is
the loss value and the mutated Policy. -/
noncomputable def finish_episode (gamma eps : ℝ) (p : Policy) : Option (ℝ × Policy) :=
  let saved_actions := p.saved_actions
  let returns := computeReturns gamma p.rewards
  let normalized := normalizedOf eps returns
  let pairs := saved_actions.zip normalized
  let policy_losses := pairs.map fun q => -q.1.log_prob * (q.2 - q.1.value)
  let value_losses := pairs.map fun q => smooth_l1_loss q.1.value q.2
  if policy_losses.isEmpty || value_losses.isEmpty then none
  else some (policy_losses.sum + value_losses.sum,
    { p with saved_actions := [], rewards := [] })

/-- One env.step result: the next observation, the reward, and the done
flag.  The environment is external; each step's outcome is supplied as
an oracle function of the chosen action. -/
structure EnvStep where
  observation : Fin 4 → ℝ
  reward : ℝ
  done : Bool

/-- The engine state visible to the per-timestep callback: the current
observation, the process-wide Policy (weights plus the two per-episode
buffers), whether terminate_epoch() was called, and
engine.state.timestep (written only when the episode ends, line 92). -/
structure EpisodeState where
  observation : Fin 4 → ℝ
  policy : Policy
  epochTerminated : Bool
  timestep : ℕ

/-- run_single_timestep (lines 82-92): select an action for the current
observation, step the environment with it, store the new observation,
append the reward to the per-episode buffer, and on done call
engine.terminate_epoch() and record the timestep index. -/
noncomputable def run_single_timestep (sample : Fin 2) (env : ℕ → EnvStep)
    (s : EpisodeState) (timestep : ℕ) : EpisodeState :=
  let am := select_action s.policy s.observation sample
  let step := env am.1
  let m2 := { am.2 with rewards := am.2.rewards ++ [step.reward] }
  if step.done then
    { observation := step.observation, policy := m2, epochTerminated := true,
      timestep := timestep }
  else
    { s with observation := step.observation, policy := m2 }

/-- Modelled from the spec: the ignite Engine's inner epoch loop is part
of the ignite repository but not under src/.  Per the spec, the engine
invokes the per-step callback with monotonically increasing step
indices and stops dispatching steps of the epoch once the callback has
signalled termination (terminate_epoch).  Each list entry carries the
step index together with the two oracles of that step (the Categorical
sample and the environment's response). -/
noncomputable def runEpisode : EpisodeState → List (ℕ × Fin 2 × (ℕ → EnvStep)) → EpisodeState
  | s, [] => s
  | s, (t, sample, env) :: rest =>
    if s.epochTerminated then s
    else runEpisode (run_single_timestep sample env s t) rest

/-- The engine-level training state: engine.state.running_reward,
engine.state.timestep, engine.state.epoch and the should_terminate
flag. -/
structure TrainState where
  running_reward : ℝ
  timestep : ℕ
  epoch : ℕ
  should_terminate : Bool

/-- The Events.STARTED handler (lines 96-98, named initialize in the
source): sets engine.state.running_reward = 10 when training starts. -/
def startedHandler (s : TrainState) : TrainState :=
  { s with running_reward := 10 }

/-- The running-reward part of the EPISODE_COMPLETED handler
update_model (lines 104-108): t = engine.state.timestep and
running_reward becomes running_reward * 0.99 + t * 0.01.  The
finish_episode call of line 108 acts on the Policy buffers and is
modelled by finish_episode above. -/
noncomputable def update_model (s : TrainState) : TrainState :=
  { s with running_reward := s.running_reward * 0.99 + (s.timestep : ℝ) * 0.01 }

/-- should_finish_training (lines 118-126): after each episode, if the
running reward exceeds the environment's reward threshold, set
engine.should_terminate. -/
noncomputable def should_finish_training (threshold : ℝ) (s : TrainState) : TrainState :=
  if s.running_reward > threshold then { s with should_terminate := true } else s

/-- The EPISODE_COMPLETED handlers in registration order: update_model
(line 104), the purely-printing log_episode (line 110), and
should_finish_training (line 118). -/
noncomputable def episodeCompleted (threshold : ℝ) (s : TrainState) : TrainState :=
  should_finish_training threshold (update_model s)

/-- Modelled from the spec: the ignite Engine's outer loop
(trainer.run(timesteps, max_epochs=args.max_episodes)) is part of the
ignite repository but not under src/.  Per the spec, the engine runs
successive episodes, increments engine.state.epoch at each episode
start, fires the EPISODE_COMPLETED handlers after the episode's
termination signal, and checks the global should_terminate flag and the
max_epochs cap between episodes, so that no further episode starts once
the flag is set or the cap is reached.  Each episode ends at some
environment-determined last timestep index; the list argument supplies
those indices as an oracle, one per available episode. -/
noncomputable def trainLoop (threshold : ℝ) (maxEpisodes : ℕ) : TrainState → List ℕ → TrainState
  | s, [] => s
  | s, t :: rest =>
    if s.should_terminate then s
    else if maxEpisodes ≤ s.epoch then s
    else trainLoop threshold maxEpisodes
      (episodeCompleted threshold { s with epoch := s.epoch + 1, timestep := t }) rest

/-- A whole training run: Events.STARTED fires the running-reward
initialization, then the episode loop runs. -/
noncomputable def trainRun (threshold : ℝ) (maxEpisodes : ℕ) (ts : List ℕ) : TrainState :=
  trainLoop threshold maxEpisodes
    (startedHandler { running_reward := 0, timestep := 0, epoch := 0, should_terminate := false }) ts

/-- The import guard of lines 13-16: if the gym import fails, a
RuntimeError with an instructive message is raised before anything else
runs; otherwise module initialization proceeds.  This is the script's
only explicit raise. -/
def gymImportGuard (gymAvailable : Bool) : Except String Unit :=
  if gymAvailable then Except.ok ()
  else Except.error "Please install opengym: pip install gym"

/-- An affine layer with all parameters zero, for concrete witnesses. -/
def zeroLinear (i o : ℕ) : Linear i o := ⟨fun _ _ => 0, fun _ => 0⟩

/-- A concrete Policy with zero weights and the given buffers, for
concrete witnesses. -/
def testPolicy (sa : List SavedAction) (rs : List ℝ) : Policy :=
  ⟨zeroLinear 4 128, zeroLinear 128 2, zeroLinear 128 1, sa, rs⟩

/-- The return value seeded with R at the end of the list:
seededReturn gamma R l folds r + gamma * acc over l ending in R. -/
def seededReturn {K : Type} [CommRing K] (gamma R : K) : List K → K
  | [] => R
  | r :: rest => r + gamma * seededReturn gamma R rest

/-- Forward characterization of the backward loop: the list whose entry
at position t is the seeded return of the suffix from t. -/
def returnsList {K : Type} [CommRing K] (gamma R : K) : List K → List K
  | [] => []
  | r :: rest => (r + gamma * seededReturn gamma R rest) :: returnsList gamma R rest

/-! ## Characterization of the backward return loop -/

lemma returnsLoop_append {K : Type} [CommRing K] (gamma : K) (l : List K) :
    ∀ R acc, returnsLoop gamma l R acc = returnsLoop gamma l R [] ++ acc := by
  induction l with
  | nil => intro R acc; simp [returnsLoop]
  | cons r rest ih =>
    intro R acc
    simp only [returnsLoop]
    rw [ih (r + gamma * R) ((r + gamma * R) :: acc), ih (r + gamma * R) [r + gamma * R]]
    simp

lemma seededReturn_append {K : Type} [CommRing K] (gamma w R : K) (l : List K) :
    seededReturn gamma R (l ++ [w]) = seededReturn gamma (w + gamma * R) l := by
  induction l with
  | nil => simp [seededReturn]
  | cons x t ih => simp [seededReturn, ih]

lemma returnsList_append {K : Type} [CommRing K] (gamma w R : K) (l : List K) :
    returnsList gamma R (l ++ [w]) = returnsList gamma (w + gamma * R) l ++ [w + gamma * R] := by
  induction l with
  | nil => simp [returnsList, seededReturn]
  | cons x t ih => simp [returnsList, ih, seededReturn_append]

lemma returnsLoop_eq_returnsList {K : Type} [CommRing K] (gamma : K) (l : List K) :
    ∀ R, returnsLoop gamma l R [] = returnsList gamma R l.reverse := by
  induction l with
  | nil => intro R; simp [returnsLoop, returnsList]
  | cons r rest ih =>
    intro R
    simp only [returnsLoop]
    rw [returnsLoop_append, ih]
    simp [returnsList_append]

lemma computeReturns_eq_returnsList {K : Type} [CommRing K] (gamma : K) (l : List K) :
    computeReturns gamma l = returnsList gamma 0 l := by
  simp [computeReturns, returnsLoop_eq_returnsList]

lemma returnsList_length {K : Type} [CommRing K] (gamma R : K) (l : List K) :
    (returnsList gamma R l).length = l.length := by
  induction l with
  | nil => rfl
  | cons r rest ih => simp [returnsList, ih]

lemma computeReturns_length {K : Type} [CommRing K] (gamma : K) (l : List K) :
    (computeReturns gamma l).length = l.length := by
  rw [computeReturns_eq_returnsList, returnsList_length]

lemma returnsList_getD {K : Type} [CommRing K] (gamma R : K) :
    ∀ (l : List K) (t : ℕ), t < l.length →
      (returnsList gamma R l).getD t 0 = seededReturn gamma R (l.drop t) := by
  intro l
  induction l with
  | nil => intro t ht; simp at ht
  | cons r rest ih =>
    intro t ht
    cases t with
    | zero => simp [returnsList, seededReturn]
    | succ n =>
      simp only [returnsList, List.getD_cons_succ, List.drop_succ_cons]
      exact ih n (by simpa using Nat.lt_of_succ_lt_succ ht)

lemma seededReturn_zero_eq_sum {K : Type} [CommRing K] (gamma : K) :
    ∀ l : List K, seededReturn gamma 0 l = ∑ k ∈ Finset.range l.length, gamma ^ k * l.getD k 0 := by
  intro l
  induction l with
  | nil => simp [seededReturn]
  | cons r rest ih =>
    simp only [seededReturn, ih, List.length_cons]
    rw [Finset.sum_range_succ']
    simp only [List.getD_cons_succ, List.getD_cons_zero, pow_zero, one_mul]
    rw [Finset.mul_sum]
    rw [add_comm]
    congr 1
    exact Finset.sum_congr rfl fun k _ => by ring

lemma getD_drop {K : Type} [CommRing K] :
    ∀ (l : List K) (t k : ℕ), (l.drop t).getD k 0 = l.getD (t + k) 0 := by
  intro l
  induction l with
  | nil => intro t k; simp
  | cons x xs ih =>
    intro t k
    cases t with
    | zero => simp
    | succ n =>
      rw [List.drop_succ_cons, ih n k, show n + 1 + k = (n + k) + 1 by omega,
        List.getD_cons_succ]

/-- Claim C1: in finish_episode, the raw return computed at position t
of the reward list equals the discounted sum of the rewards from t on,
computed backward from the end of the episode with R = 0 past the end;
concretely, rewards [1,1,1] with discount 1 give returns [3,2,1] and
rewards [0,0,1] with discount 0.99 give returns [0.9801, 0.99, 1]
(exact in rational arithmetic). -/
theorem c1_discounted_returns :
    (∀ (gamma : ℚ) (rs : List ℚ) (t : ℕ), t < rs.length →
        (computeReturns gamma rs).getD t 0
          = ∑ k ∈ Finset.range (rs.length - t), gamma ^ k * rs.getD (t + k) 0)
    ∧ computeReturns (1 : ℚ) [1, 1, 1] = [3, 2, 1]
    ∧ computeReturns (99 / 100 : ℚ) [0, 0, 1] = [9801 / 10000, 99 / 100, 1] := by
  refine ⟨?_, ?_, ?_⟩
  · intro gamma rs t ht
    rw [computeReturns_eq_returnsList, returnsList_getD gamma 0 rs t ht,
      seededReturn_zero_eq_sum, List.length_drop]
    exact Finset.sum_congr rfl fun k _ => by rw [getD_drop]
  · norm_num [computeReturns, returnsLoop]
  · norm_num [computeReturns, returnsLoop]

/-- Concrete instantiation of the quantified part of C1 at rewards
[1,1,1], discount 1, position 0. -/
theorem c1_discounted_returns_witness :
    (computeReturns (1 : ℚ) [1, 1, 1]).getD 0 0
      = ∑ k ∈ Finset.range (([1, 1, 1] : List ℚ).length - 0),
          (1 : ℚ) ^ k * ([1, 1, 1] : List ℚ).getD (0 + k) 0 :=
  c1_discounted_returns.1 1 [1, 1, 1] 0 (by simp)

/-! ## Statistics of the normalization step -/

lemma sum_map_mul_const (l : List ℝ) (f : ℝ → ℝ) (c : ℝ) :
    (l.map fun x => f x * c).sum = (l.map f).sum * c := by
  induction l with
  | nil => simp
  | cons a t ih => simp only [List.map_cons, List.sum_cons, ih]; ring

lemma sum_map_sub_const (l : List ℝ) (c : ℝ) :
    (l.map fun x => x - c).sum = l.sum - l.length * c := by
  induction l with
  | nil => simp
  | cons a t ih => simp only [List.map_cons, List.sum_cons, ih, List.length_cons]; push_cast; ring

lemma length_two_of_mem_ne {l : List ℝ} {a b : ℝ} (ha : a ∈ l) (hb : b ∈ l)
    (hab : a ≠ b) : 2 ≤ l.length := by
  match l with
  | [] => simp at ha
  | [x] =>
    simp only [List.mem_singleton] at ha hb
    exact absurd (ha.trans hb.symm) hab
  | x :: y :: t => simp only [List.length_cons]; omega

lemma exists_ne_mean {l : List ℝ} (h : ∃ a ∈ l, ∃ b ∈ l, a ≠ b) :
    ∃ x ∈ l, x ≠ mean l := by
  obtain ⟨a, ha, b, hb, hab⟩ := h
  by_contra hc
  push_neg at hc
  exact hab ((hc a ha).trans (hc b hb).symm)

lemma sqDevSum_nonneg (l : List ℝ) : 0 ≤ sqDevSum l := by
  apply List.sum_nonneg
  intro x hx
  obtain ⟨y, _, rfl⟩ := List.mem_map.mp hx
  positivity

lemma sqDevSum_pos {l : List ℝ} (h : ∃ x ∈ l, x ≠ mean l) : 0 < sqDevSum l := by
  obtain ⟨x, hx, hne⟩ := h
  have hmem : (x - mean l) ^ 2 ∈ l.map fun y => (y - mean l) ^ 2 :=
    List.mem_map_of_mem _ hx
  have hle : (x - mean l) ^ 2 ≤ sqDevSum l := by
    apply List.single_le_sum _ _ hmem
    intro y hy
    obtain ⟨z, _, rfl⟩ := List.mem_map.mp hy
    positivity
  have hxne : x - mean l ≠ 0 := sub_ne_zero.mpr hne
  have hxpos : 0 < (x - mean l) ^ 2 := by positivity
  linarith

lemma varUnbiased_pos {l : List ℝ} (h2 : 2 ≤ l.length) (h : ∃ x ∈ l, x ≠ mean l) :
    0 < varUnbiased l := by
  apply div_pos (sqDevSum_pos h)
  have h2R : (2 : ℝ) ≤ (l.length : ℝ) := by exact_mod_cast h2
  linarith

lemma std_nonneg (l : List ℝ) : 0 ≤ std l := Real.sqrt_nonneg _

lemma std_pos {l : List ℝ} (hnc : ∃ a ∈ l, ∃ b ∈ l, a ≠ b) : 0 < std l := by
  obtain ⟨a, ha, b, hb, hab⟩ := hnc
  exact Real.sqrt_pos.mpr
    (varUnbiased_pos (length_two_of_mem_ne ha hb hab) (exists_ne_mean ⟨a, ha, b, hb, hab⟩))

lemma normalized_mean_zero (l : List ℝ) (eps : ℝ) : mean (normalizedOf eps l) = 0 := by
  cases l with
  | nil => simp [normalizedOf, mean]
  | cons a t =>
    have hn : ((a :: t).length : ℝ) ≠ 0 := by
      simp only [List.length_cons]
      positivity
    have hsum : ((a :: t).map fun x => (x - mean (a :: t)) / (std (a :: t) + eps)).sum = 0 := by
      simp only [div_eq_mul_inv]
      rw [sum_map_mul_const (a :: t) (fun x => x - mean (a :: t)) (std (a :: t) + eps)⁻¹,
        sum_map_sub_const]
      have hz : (a :: t).sum - ((a :: t).length : ℝ) * mean (a :: t) = 0 := by
        rw [mean]
        field_simp
      rw [hz, zero_mul]
    have hrfl : mean (normalizedOf eps (a :: t))
        = ((a :: t).map fun x => (x - mean (a :: t)) / (std (a :: t) + eps)).sum
          / (((a :: t).map fun x => (x - mean (a :: t)) / (std (a :: t) + eps)).length : ℝ) :=
      rfl
    rw [hrfl, hsum, zero_div]

lemma normalized_length (l : List ℝ) (eps : ℝ) : (normalizedOf eps l).length = l.length := by
  simp [normalizedOf]

lemma normalized_std (l : List ℝ) (eps : ℝ) (heps : 0 ≤ eps) :
    std (normalizedOf eps l) = std l / (std l + eps) := by
  have hc : 0 ≤ (std l + eps)⁻¹ := by
    have := std_nonneg l
    positivity
  have hm0 : mean (normalizedOf eps l) = 0 := normalized_mean_zero l eps
  have hsq : sqDevSum (normalizedOf eps l) = sqDevSum l * ((std l + eps)⁻¹) ^ 2 := by
    rw [sqDevSum, hm0]
    have hmap : (normalizedOf eps l).map (fun x => (x - 0) ^ 2)
        = l.map fun x => (x - mean l) ^ 2 * ((std l + eps)⁻¹) ^ 2 := by
      simp only [normalizedOf, List.map_map]
      apply List.map_congr_left
      intro x _
      simp only [Function.comp_apply, sub_zero, div_eq_mul_inv, mul_pow]
    rw [hmap, sum_map_mul_const l (fun x => (x - mean l) ^ 2) (((std l + eps)⁻¹) ^ 2)]
    rfl
  rw [std, varUnbiased, hsq, normalized_length]
  rw [show sqDevSum l * ((std l + eps)⁻¹) ^ 2 / ((l.length : ℝ) - 1)
      = sqDevSum l / ((l.length : ℝ) - 1) * ((std l + eps)⁻¹) ^ 2 from by ring]
  rw [Real.sqrt_mul' _ (by positivity), Real.sqrt_sq hc]
  rw [div_eq_mul_inv]
  rfl

/-- Claim C2 counterexample: the reward sequence [1, 100] is
non-constant, yet with the script's default discount 0.99 the raw
returns are the constant list [100, 100]; the normalized sequence is
then [0, 0], whose standard deviation is 0 and not approximately 1, so
non-constancy of the rewards does not give the claimed moments. -/
theorem c2_counterexample :
    computeReturns ((99 : ℝ) / 100) [1, 100] = [100, 100]
    ∧ normalizedOf eps32 (computeReturns ((99 : ℝ) / 100) [1, 100]) = [0, 0]
    ∧ std (normalizedOf eps32 (computeReturns ((99 : ℝ) / 100) [1, 100])) = 0 := by
  have h1 : computeReturns ((99 : ℝ) / 100) [1, 100] = [100, 100] := by
    norm_num [computeReturns, returnsLoop]
  have hm : mean ([100, 100] : List ℝ) = 100 := by
    norm_num [mean]
  have h2 : normalizedOf eps32 ([100, 100] : List ℝ) = [0, 0] := by
    simp [normalizedOf, hm]
  have hv : varUnbiased ([(0 : ℝ), 0]) = 0 := by
    norm_num [varUnbiased, sqDevSum, mean]
  have h3 : std ([(0 : ℝ), 0]) = 0 := by
    simp [std, hv]
  exact ⟨h1, by rw [h1]; exact h2, by rw [h1, h2]; exact h3⟩

/-- Claim C2 (amended): whenever the raw returns computed by
finish_episode are non-constant (which a non-constant reward sequence
alone does not guarantee), the normalized return sequence has mean
exactly 0 and a standard deviation within eps divided by the raw
returns' standard deviation of 1, and the normalization is
NaN-free. -/
theorem c2_normalized_moments (gamma eps : ℝ) (rs : List ℝ) (heps : 0 < eps)
    (hnc : ∃ a ∈ computeReturns gamma rs, ∃ b ∈ computeReturns gamma rs, a ≠ b) :
    mean (normalizedOf eps (computeReturns gamma rs)) = 0
    ∧ |std (normalizedOf eps (computeReturns gamma rs)) - 1|
        ≤ eps / std (computeReturns gamma rs)
    ∧ normalizeReturns eps (computeReturns gamma rs)
        = some (normalizedOf eps (computeReturns gamma rs)) := by
  obtain ⟨a, ha, b, hb, hab⟩ := hnc
  have h2 : 2 ≤ (computeReturns gamma rs).length := length_two_of_mem_ne ha hb hab
  have hs : 0 < std (computeReturns gamma rs) := std_pos ⟨a, ha, b, hb, hab⟩
  have hd : 0 < std (computeReturns gamma rs) + eps := by linarith
  refine ⟨normalized_mean_zero _ eps, ?_, ?_⟩
  · rw [normalized_std _ eps heps.le]
    have h1 : std (computeReturns gamma rs) / (std (computeReturns gamma rs) + eps) - 1
        = -(eps / (std (computeReturns gamma rs) + eps)) := by
      field_simp
    rw [h1, abs_neg, abs_of_nonneg (div_nonneg heps.le hd.le)]
    gcongr
    linarith
  · simp only [normalizeReturns]
    rw [if_neg (by omega)]

/-- Concrete instantiation of C2 (amended): rewards [2, 0] with
discount 1 give the non-constant returns [2, 0]. -/
theorem c2_normalized_moments_witness :
    mean (normalizedOf 1 (computeReturns (1 : ℝ) [2, 0])) = 0
    ∧ |std (normalizedOf 1 (computeReturns (1 : ℝ) [2, 0])) - 1|
        ≤ 1 / std (computeReturns (1 : ℝ) [2, 0])
    ∧ normalizeReturns 1 (computeReturns (1 : ℝ) [2, 0])
        = some (normalizedOf 1 (computeReturns (1 : ℝ) [2, 0])) :=
  c2_normalized_moments 1 1 [2, 0] (by norm_num)
    ⟨2, by norm_num [computeReturns, returnsLoop], 0,
      by norm_num [computeReturns, returnsLoop], by norm_num⟩

/-- Claim C3 counterexample: for the single-timestep episode with
reward 1, the returns tensor has one element, torch's unbiased std is
0/0 = NaN, and the normalized result is the NaN tensor (none), not a
finite value; the eps added to the standard deviation does not guard
this case. -/
theorem c3_counterexample :
    normalizeReturns eps32 (computeReturns ((99 : ℝ) / 100) [1]) = none := by
  have h : (computeReturns ((99 : ℝ) / 100) [1]).length = 1 := by
    rw [computeReturns_length]
    rfl
  simp [normalizeReturns, h]

/-- Claim C3 (amended): the stability constant makes the normalization
divisor positive, and the normalization well defined, exactly on the
episodes where torch's unbiased standard deviation is defined: those of
length at least 2 (including constant ones with zero standard
deviation); a single-timestep episode instead yields NaN. -/
theorem c3_guarded_normalization (l : List ℝ) (eps : ℝ) (h2 : 2 ≤ l.length)
    (heps : 0 < eps) :
    0 < std l + eps ∧ normalizeReturns eps l = some (normalizedOf eps l) := by
  constructor
  · have := std_nonneg l
    linarith
  · simp only [normalizeReturns]
    rw [if_neg (by omega)]

/-- Concrete instantiation of C3 (amended): the constant length-2
episode [1, 1], whose standard deviation is zero, is safely normalized
thanks to eps. -/
theorem c3_guarded_normalization_witness :
    0 < std [(1 : ℝ), 1] + eps32
    ∧ normalizeReturns eps32 [(1 : ℝ), 1] = some (normalizedOf eps32 [(1 : ℝ), 1]) :=
  c3_guarded_normalization [1, 1] eps32 (by simp) (by norm_num [eps32])

/-! ## finish_episode buffer behaviour and the per-step callback -/

/-- Claim C4 counterexample: with an empty saved-actions buffer (here
together with a nonempty rewards buffer), the zip of line 59 is empty,
both loss lists are empty, and torch.stack raises on line 64, so the
call aborts before reaching the clearing of lines 67-68: the buffers
are not cleared regardless of their prior contents. -/
theorem c4_counterexample :
    finish_episode ((99 : ℝ) / 100) eps32 (testPolicy [] [1]) = none := by
  simp [finish_episode, testPolicy]

/-- Claim C4 (amended): whenever both per-episode buffers are nonempty
before the call - as is the case for every episode with at least one
timestep produced by the training loop - finish_episode completes and
leaves both buffers with length 0. -/
theorem c4_buffers_cleared (gamma eps : ℝ) (p : Policy)
    (hsa : p.saved_actions ≠ []) (hr : p.rewards ≠ []) :
    ∃ q, finish_episode gamma eps p = some q
      ∧ q.2.saved_actions.length = 0 ∧ q.2.rewards.length = 0 := by
  obtain ⟨a, as, hsa_eq⟩ := List.exists_cons_of_ne_nil hsa
  have hlenpos : 0 < (normalizedOf eps (computeReturns gamma p.rewards)).length := by
    rw [normalized_length, computeReturns_length]
    exact List.length_pos.mpr hr
  obtain ⟨n0, nt, hn_eq⟩ :=
    List.exists_cons_of_ne_nil (List.ne_nil_of_length_pos hlenpos)
  simp only [finish_episode]
  rw [hsa_eq, hn_eq]
  simp only [List.zip_cons_cons, List.map_cons, List.isEmpty_cons, Bool.or_self,
    Bool.false_eq_true, if_false]
  exact ⟨_, rfl, rfl, rfl⟩

/-- Concrete instantiation of C4 (amended): a one-timestep episode. -/
theorem c4_buffers_cleared_witness :
    ∃ q, finish_episode ((99 : ℝ) / 100) eps32 (testPolicy [⟨0, 0⟩] [1]) = some q
      ∧ q.2.saved_actions.length = 0 ∧ q.2.rewards.length = 0 :=
  c4_buffers_cleared _ _ _ (by simp [testPolicy]) (by simp [testPolicy])

/-- Claim C5: for every observation (and every drawn sample),
select_action returns a discrete action index below 2 and appends
exactly one (log-probability, value) record to the saved-actions
buffer, leaving the rewards buffer unchanged. -/
theorem c5_select_action_effects (p : Policy) (observation : Fin 4 → ℝ) (sample : Fin 2) :
    (select_action p observation sample).2.saved_actions
      = p.saved_actions
        ++ [⟨Real.log ((p.forward observation).1 sample), (p.forward observation).2⟩]
    ∧ (select_action p observation sample).2.saved_actions.length
        = p.saved_actions.length + 1
    ∧ (select_action p observation sample).2.rewards = p.rewards
    ∧ (select_action p observation sample).1 < 2 := by
  refine ⟨rfl, ?_, rfl, sample.isLt⟩
  simp [select_action]

lemma run_single_timestep_lengths (sample : Fin 2) (env : ℕ → EnvStep)
    (s : EpisodeState) (t : ℕ) :
    (run_single_timestep sample env s t).policy.saved_actions.length
      = s.policy.saved_actions.length + 1
    ∧ (run_single_timestep sample env s t).policy.rewards.length
      = s.policy.rewards.length + 1 := by
  simp only [run_single_timestep, select_action]
  split <;> simp

lemma runEpisode_pairing :
    ∀ (inputs : List (ℕ × Fin 2 × (ℕ → EnvStep))) (s : EpisodeState),
      s.policy.rewards.length = s.policy.saved_actions.length →
      (runEpisode s inputs).policy.rewards.length
        = (runEpisode s inputs).policy.saved_actions.length := by
  intro inputs
  induction inputs with
  | nil => intro s h; simpa [runEpisode] using h
  | cons i rest ih =>
    obtain ⟨t, sample, env⟩ := i
    intro s h
    simp only [runEpisode]
    by_cases hterm : s.epochTerminated
    · simp only [hterm, if_true]
      exact h
    · simp only [hterm, Bool.false_eq_true, if_false]
      have hs := run_single_timestep_lengths sample env s t
      exact ih _ (by omega)

/-- Claim C6: each invocation of the per-step callback appends exactly
one saved action and exactly one reward, so an episode started with
both per-episode buffers empty ends with the two buffers of equal
length (finish_episode's paired-by-timestep input requirement). -/
theorem c6_paired_buffers :
    (∀ (sample : Fin 2) (env : ℕ → EnvStep) (s : EpisodeState) (t : ℕ),
      (run_single_timestep sample env s t).policy.saved_actions.length
          = s.policy.saved_actions.length + 1
      ∧ (run_single_timestep sample env s t).policy.rewards.length
          = s.policy.rewards.length + 1)
    ∧ ∀ (p : Policy) (obs0 : Fin 4 → ℝ) (inputs : List (ℕ × Fin 2 × (ℕ → EnvStep))),
        (runEpisode
          { observation := obs0, policy := { p with saved_actions := [], rewards := [] },
            epochTerminated := false, timestep := 0 } inputs).policy.rewards.length
        = (runEpisode
          { observation := obs0, policy := { p with saved_actions := [], rewards := [] },
            epochTerminated := false, timestep := 0 } inputs).policy.saved_actions.length := by
  refine ⟨run_single_timestep_lengths, fun p obs0 inputs => ?_⟩
  exact runEpisode_pairing inputs _ (by simp)

/-! ## The episode-level training loop -/

/-- Claim C7: the running reward is set to 10 by the Events.STARTED
handler, and each completed episode with last timestep index t turns
running reward r into 0.99 * r + 0.01 * t. -/
theorem c7_running_reward :
    (∀ s : TrainState, (startedHandler s).running_reward = 10)
    ∧ ∀ (threshold : ℝ) (s : TrainState),
        (episodeCompleted threshold s).running_reward
          = 0.99 * s.running_reward + 0.01 * (s.timestep : ℝ) := by
  refine ⟨fun s => rfl, fun threshold s => ?_⟩
  simp only [episodeCompleted, should_finish_training, update_model]
  split
  · show s.running_reward * 0.99 + (s.timestep : ℝ) * 0.01 = _
    ring
  · show s.running_reward * 0.99 + (s.timestep : ℝ) * 0.01 = _
    ring

lemma episodeCompleted_epoch (threshold : ℝ) (s : TrainState) :
    (episodeCompleted threshold s).epoch = s.epoch := by
  simp only [episodeCompleted, should_finish_training, update_model]
  split <;> rfl

lemma episodeCompleted_flag_true {threshold : ℝ} {s : TrainState}
    (h0 : s.should_terminate = false)
    (h1 : (episodeCompleted threshold s).should_terminate = true) :
    (episodeCompleted threshold s).running_reward > threshold := by
  unfold episodeCompleted should_finish_training at h1 ⊢
  by_cases hc : (update_model s).running_reward > threshold
  · rw [if_pos hc]
    exact hc
  · rw [if_neg hc] at h1
    have hflag : (update_model s).should_terminate = false := h0
    rw [hflag] at h1
    cases h1

lemma trainLoop_flag_stop (threshold : ℝ) (maxEpisodes : ℕ) :
    ∀ (ts : List ℕ) (s : TrainState), s.should_terminate = true →
      trainLoop threshold maxEpisodes s ts = s := by
  intro ts s h
  cases ts with
  | nil => rfl
  | cons t rest => simp [trainLoop, h]

lemma trainLoop_main (threshold : ℝ) (maxEpisodes : ℕ) :
    ∀ (ts : List ℕ) (s : TrainState), s.epoch ≤ maxEpisodes →
      (trainLoop threshold maxEpisodes s ts).epoch ≤ maxEpisodes
      ∧ ((trainLoop threshold maxEpisodes s ts).should_terminate = true →
          (trainLoop threshold maxEpisodes s ts).running_reward > threshold
          ∨ s.should_terminate = true)
      ∧ (maxEpisodes ≤ s.epoch + ts.length →
          (trainLoop threshold maxEpisodes s ts).should_terminate = false →
          (trainLoop threshold maxEpisodes s ts).epoch = maxEpisodes) := by
  intro ts
  induction ts with
  | nil =>
    intro s hep
    refine ⟨hep, fun h => Or.inr h, fun hlen hflag => ?_⟩
    simp only [trainLoop, List.length_nil] at *
    omega
  | cons t rest ih =>
    intro s hep
    by_cases hst : s.should_terminate = true
    · rw [show trainLoop threshold maxEpisodes s (t :: rest) = s from by
        simp [trainLoop, hst]]
      exact ⟨hep, fun _ => Or.inr hst, fun _ hflag => absurd hst (by simp [hflag])⟩
    · have hstf : s.should_terminate = false := by
        revert hst
        cases s.should_terminate <;> simp
      by_cases hmax : maxEpisodes ≤ s.epoch
      · have heq : trainLoop threshold maxEpisodes s (t :: rest) = s := by
          simp [trainLoop, hstf, hmax]
        rw [heq]
        exact ⟨hep, fun h => absurd h (by simp [hstf]), fun _ _ => by omega⟩
      · have heq : trainLoop threshold maxEpisodes s (t :: rest)
            = trainLoop threshold maxEpisodes
                (episodeCompleted threshold { s with epoch := s.epoch + 1, timestep := t })
                rest := by
          simp [trainLoop, hstf, hmax]
        have hs2epoch :
            (episodeCompleted threshold
              { s with epoch := s.epoch + 1, timestep := t }).epoch = s.epoch + 1 :=
          episodeCompleted_epoch _ _
        have hrec := ih (episodeCompleted threshold
          { s with epoch := s.epoch + 1, timestep := t }) (by omega)
        rw [heq]
        refine ⟨hrec.1, ?_, ?_⟩
        · intro hfl
          rcases hrec.2.1 hfl with h | h
          · exact Or.inl h
          · have hstop := trainLoop_flag_stop threshold maxEpisodes rest _ h
            rw [hstop]
            exact Or.inl (episodeCompleted_flag_true hstf h)
        · intro hlen hflag
          apply hrec.2.2
          · simp only [List.length_cons] at hlen
            omega
          · exact hflag

/-- Claim C8: given at least as many available episodes as the cap, the
run ends with the epoch count at most the cap; if the early-stop flag
is set the running reward exceeded the threshold (checked at episode
completion); if it is not set the run used exactly the configured
maximum number of episodes; and once the flag is set no further episode
starts. -/
theorem c8_termination (threshold : ℝ) (maxEpisodes : ℕ) (ts : List ℕ)
    (hlen : maxEpisodes ≤ ts.length) :
    (trainRun threshold maxEpisodes ts).epoch ≤ maxEpisodes
    ∧ ((trainRun threshold maxEpisodes ts).should_terminate = true →
        (trainRun threshold maxEpisodes ts).running_reward > threshold)
    ∧ ((trainRun threshold maxEpisodes ts).should_terminate = false →
        (trainRun threshold maxEpisodes ts).epoch = maxEpisodes)
    ∧ ∀ (s : TrainState) (rest : List ℕ), s.should_terminate = true →
        trainLoop threshold maxEpisodes s rest = s := by
  simp only [trainRun]
  have h := trainLoop_main threshold maxEpisodes ts
    (startedHandler
      { running_reward := 0, timestep := 0, epoch := 0, should_terminate := false })
    (by simp [startedHandler])
  refine ⟨h.1, fun hf => ?_, fun hf => h.2.2 (by simpa [startedHandler] using hlen) hf,
    fun s rest hs => trainLoop_flag_stop threshold maxEpisodes rest s hs⟩
  rcases h.2.1 hf with hgt | hflag
  · exact hgt
  · simp [startedHandler] at hflag

/-- Concrete instantiation of C8: threshold 0, cap 1, one available
episode. -/
theorem c8_termination_witness :
    (trainRun 0 1 [0]).epoch ≤ 1
    ∧ ((trainRun 0 1 [0]).should_terminate = true → (trainRun 0 1 [0]).running_reward > 0)
    ∧ ((trainRun 0 1 [0]).should_terminate = false → (trainRun 0 1 [0]).epoch = 1)
    ∧ ∀ (s : TrainState) (rest : List ℕ), s.should_terminate = true →
        trainLoop 0 1 s rest = s :=
  c8_termination 0 1 [0] (by simp)

/-- Claim C9: when the gym import fails the module raises immediately
with the instructive installation message, and when it succeeds the
guard does nothing; lines 13-16 are the script's only explicit raise. -/
theorem c9_import_guard :
    gymImportGuard false = Except.error "Please install opengym: pip install gym"
    ∧ gymImportGuard true = Except.ok () :=
  ⟨rfl, rfl⟩

lemma softmax_nonneg {n : ℕ} (s : Fin n → ℝ) (i : Fin n) : 0 ≤ softmax s i :=
  div_nonneg (Real.exp_pos _).le (Finset.sum_nonneg fun _ _ => (Real.exp_pos _).le)

lemma softmax_sum_one (s : Fin 2 → ℝ) : ∑ i, softmax s i = 1 := by
  have hpos : 0 < ∑ j, Real.exp (s j) :=
    Finset.sum_pos (fun j _ => Real.exp_pos _) Finset.univ_nonempty
  simp only [softmax]
  rw [← Finset.sum_div, div_self (ne_of_gt hpos)]

/-- Claim C10: for every 4-dimensional input and every parameter
setting, Policy.forward returns a softmax probability vector over the 2
actions - entries non-negative, summing to 1 - along with the scalar
value estimate, and consequently the action index select_action returns
is 0 or 1. -/
theorem c10_policy_distribution (p : Policy) (x : Fin 4 → ℝ) :
    (∀ i, 0 ≤ (p.forward x).1 i)
    ∧ (∑ i, (p.forward x).1 i) = 1
    ∧ ∀ sample : Fin 2,
        (select_action p x sample).1 = 0 ∨ (select_action p x sample).1 = 1 := by
  refine ⟨fun i => softmax_nonneg _ i, softmax_sum_one _, fun sample => ?_⟩
  have h : (select_action p x sample).1 = (sample : ℕ) := rfl
  have hlt := sample.isLt
  rw [h]
  omega

end ActorCritic
